import Mathlib

/-!
# Verification of `fun_stuff/expression_string_optimizer.py`

A shallow embedding of the expression-string optimizer: a round-based search
that, starting from the single base expression `True` (value 1, score 1),
repeatedly raises a score ceiling and combines previously stored expressions
with unary and binary operators, keeping the first expression found for each
integer value.

Python integers are modelled as `Int` (arbitrary precision in both).
Python's bitwise operators on negative numbers use two's complement with
infinitely many sign bits; the definitions below mirror that semantics
case-by-case on `Int.ofNat` / `Int.negSucc` (the same case split Mathlib's
`Int.land`/`Int.lor`/`Int.xor` use), written so that the kernel can reduce
them on concrete inputs.

Python exceptions raised by `evaluate()` (ZeroDivisionError on `//` and `%`
by zero, ValueError on negative shift counts, OverflowError on `**` with a
negative exponent and a base too large for a float) are modelled by `Option`:
`none` means the evaluation raises.
-/

namespace ExprOpt

/-- Bitwise difference on `Nat`: the bits of `n` with the bits of `m`
removed.  Since `n &&& m` is a sub-mask of `n`, plain subtraction computes
it, and (unlike `Nat.ldiff`) it reduces in the kernel. -/
def nldiff (n m : Nat) : Nat := n - (n &&& m)

/-- Two's-complement bitwise AND on `Int`, Python's `&` semantics. -/
def iand : Int → Int → Int
  | .ofNat m, .ofNat n => .ofNat (m &&& n)
  | .ofNat m, .negSucc n => .ofNat (nldiff m n)
  | .negSucc m, .ofNat n => .ofNat (nldiff n m)
  | .negSucc m, .negSucc n => .negSucc (m ||| n)

/-- Two's-complement bitwise OR on `Int`, Python's `|` semantics. -/
def ior : Int → Int → Int
  | .ofNat m, .ofNat n => .ofNat (m ||| n)
  | .ofNat m, .negSucc n => .negSucc (nldiff n m)
  | .negSucc m, .ofNat n => .negSucc (nldiff m n)
  | .negSucc m, .negSucc n => .negSucc (m &&& n)

/-- Two's-complement bitwise XOR on `Int`, Python's `^` semantics. -/
def ixor : Int → Int → Int
  | .ofNat m, .ofNat n => .ofNat (m ^^^ n)
  | .ofNat m, .negSucc n => .negSucc (m ^^^ n)
  | .negSucc m, .ofNat n => .negSucc (m ^^^ n)
  | .negSucc m, .negSucc n => .ofNat (m ^^^ n)

/-- Python's `~a = -a - 1`. -/
def inot (a : Int) : Int := -a - 1

/-- Python's `a << b`: `a * 2 ^ b`; raises (`none`) for negative `b`. -/
def pyShiftLeft (a b : Int) : Option Int :=
  if b < 0 then none else some (a * 2 ^ b.toNat)

/-- Python's `a >> b`: arithmetic (floor) shift; raises for negative `b`. -/
def pyShiftRight (a b : Int) : Option Int :=
  if b < 0 then none else some (Int.fdiv a (2 ^ b.toNat))

/-- Python's `a // b`: floor division; raises for `b = 0`. -/
def pyFloorDiv (a b : Int) : Option Int :=
  if b = 0 then none else some (Int.fdiv a b)

/-- Python's `a % b`: remainder with the divisor's sign; raises for `b = 0`. -/
def pyMod (a b : Int) : Option Int :=
  if b = 0 then none else some (Int.fmod a b)

/-- Python's `int(a ** b)`.  For `b ≥ 0` this is integer power.  For `b < 0`
Python computes a float and `int(...)` truncates it toward zero: the result
is `±1` for base `±1`, `0` for any other base that fits in a float
(the true value lies strictly between `-1` and `1`), a ZeroDivisionError for
base `0`, and an OverflowError when the base cannot be converted to a float
(threshold `2 ^ 1024`, up to float rounding at the boundary). -/
def pyPow (a b : Int) : Option Int :=
  if 0 ≤ b then some (a ^ b.toNat)
  else if a = 0 then none
  else if a = 1 then some 1
  else if a = -1 then some (if b % 2 = 0 then 1 else -1)
  else if a.natAbs < 2 ^ 1024 then some 0
  else none

/-- The unary operators, `class UnaryOperator(Operator)`, in declaration
order: `MINUS = '-'`, `BITWISE_NOT = '~'`. -/
inductive UnaryOp
  | minus
  | bitwiseNot
deriving DecidableEq, Repr

/-- The commutative binary operators, `class BinaryCommutativeOperator`,
in declaration order: `ADD`, `MULTIPLY`, `BITWISE_AND`, `BITWISE_OR`,
`BITWISE_XOR`. -/
inductive BinaryCommOp
  | add
  | multiply
  | bitwiseAnd
  | bitwiseOr
  | bitwiseXor
deriving DecidableEq, Repr

/-- The noncommutative binary operators, `class BinaryNonCommutativeOperator`,
in declaration order: `BIT_SHIFT_LEFT`, `BIT_SHIFT_RIGHT`, `SUBTRACT`,
`EXPONENTIATE`, `INT_DIVIDE`, `MODULO`. -/
inductive BinaryNoncommOp
  | bitShiftLeft
  | bitShiftRight
  | subtract
  | exponentiate
  | intDivide
  | modulo
deriving DecidableEq, Repr

/-- A binary operator, `class BinaryOperator(Operator)`: either commutative
or noncommutative. -/
inductive BinaryOp
  | comm (op : BinaryCommOp)
  | noncomm (op : BinaryNoncommOp)
deriving DecidableEq, Repr

/-- Evaluation of a unary operator, Python semantics. -/
def UnaryOp.apply : UnaryOp → Int → Int
  | .minus, a => -a
  | .bitwiseNot, a => inot a

/-- Evaluation of a commutative binary operator, Python semantics (total). -/
def BinaryCommOp.apply : BinaryCommOp → Int → Int → Int
  | .add, a, b => a + b
  | .multiply, a, b => a * b
  | .bitwiseAnd, a, b => iand a b
  | .bitwiseOr, a, b => ior a b
  | .bitwiseXor, a, b => ixor a b

/-- Evaluation of a noncommutative binary operator, Python semantics
(`none` models a raised exception). -/
def BinaryNoncommOp.apply : BinaryNoncommOp → Int → Int → Option Int
  | .bitShiftLeft, a, b => pyShiftLeft a b
  | .bitShiftRight, a, b => pyShiftRight a b
  | .subtract, a, b => some (a - b)
  | .exponentiate, a, b => pyPow a b
  | .intDivide, a, b => pyFloorDiv a b
  | .modulo, a, b => pyMod a b

/-- Evaluation of any binary operator. -/
def BinaryOp.apply : BinaryOp → Int → Int → Option Int
  | .comm op, a, b => some (op.apply a b)
  | .noncomm op, a, b => op.apply a b

/-- The expression tree.  `TrueExpression` is the base case (the literal
`True`, score 1); `CompositeExpression` applies a unary operator to one
child or a binary operator to two children.  The Python class stores a
string rendering and re-parses it in `evaluate()`; the tree shape below is
exactly the shape of that string. -/
inductive Expr
  | trueE
  | unary (op : UnaryOp) (e : Expr)
  | binary (op : BinaryOp) (e₁ e₂ : Expr)
deriving DecidableEq, Repr

/-- `Expression.score`: `TrueExpression` has score 1, a unary composite
`expr_1.score + 1`, a binary composite `expr_1.score + expr_2.score + 1`
(from `CompositeExpression.__init__`). -/
def Expr.score : Expr → Nat
  | .trueE => 1
  | .unary _ e => e.score + 1
  | .binary _ a b => a.score + b.score + 1

/-- `Expression.evaluate`: `int(eval(self._string))`.  `True` evaluates
to 1; composites apply the operator's Python semantics to the evaluated
children; `none` models a raised arithmetic exception. -/
def Expr.eval : Expr → Option Int
  | .trueE => some 1
  | .unary op e => do
      let v ← e.eval
      return op.apply v
  | .binary op a b => do
      let x ← a.eval
      let y ← b.eval
      op.apply x y

/-- Association-list lookup modelling Python `dict` access: the most recent
binding for a key wins. -/
def alookup {α β : Type} [DecidableEq α] : List (α × β) → α → Option β
  | [], _ => none
  | (k, v) :: rest, k' => if k' = k then some v else alookup rest k'

/-- The optimizer state: `_max_score`, `_min_s_exprs` (score → expressions
with that score) and `_targs` (target value → expression), both dicts
modelled as association lists where the head binding wins. -/
structure OptState where
  maxScore : Nat
  minSExprs : List (Nat × List Expr)
  targs : List (Int × Expr)
deriving DecidableEq, Repr

/-- `ExpressionOptimizer.__init__`: ceiling 1, both indices seeded with the
single `TrueExpression` at score 1 / value 1. -/
def initState : OptState :=
  { maxScore := 1
    minSExprs := [(1, [Expr.trueE])]
    targs := [(1, Expr.trueE)] }

/-- `_get_score_exprs`: `self._min_s_exprs[score]`; `none` models the
`KeyError` (a `LookupError`) raised on a missing key. -/
def getScoreExprs (s : OptState) (score : Nat) : Option (List Expr) :=
  alookup s.minSExprs score

/-- `self._min_s_exprs[expr.score] = self._min_s_exprs.get(expr.score, []) + [expr]`. -/
def bucketAppend (d : List (Nat × List Expr)) (k : Nat) (e : Expr) :
    List (Nat × List Expr) :=
  (k, ((alookup d k).getD []) ++ [e]) :: d

/-- `_add_expr_if_better`: evaluate the candidate; if its value is already a
key of `_targs`, discard it (return `false`); otherwise record it in both
indices (return `true`).  `none` models `evaluate()` raising. -/
def addExprIfBetter (s : OptState) (e : Expr) : Option (OptState × Bool) := do
  let v ← e.eval
  if (alookup s.targs v).isSome then
    return (s, false)
  else
    return ({ s with
              targs := (v, e) :: s.targs
              minSExprs := bucketAppend s.minSExprs e.score e }, true)

/-- The admission loop `for new_expr in new_exprs: self._add_expr_if_better(new_expr)`. -/
def addAll : OptState → List Expr → Option OptState
  | s, [] => some s
  | s, e :: rest => do
      let (s', _) ← addExprIfBetter s e
      addAll s' rest

/-- The list of unary operators in iteration order (`for op in UnaryOperator`). -/
def unaryOps : List UnaryOp := [.minus, .bitwiseNot]

/-- The list of commutative operators in iteration order. -/
def commOps : List BinaryCommOp :=
  [.add, .multiply, .bitwiseAnd, .bitwiseOr, .bitwiseXor]

/-- The list of noncommutative operators in iteration order. -/
def noncommOps : List BinaryNoncommOp :=
  [.bitShiftLeft, .bitShiftRight, .subtract, .exponentiate, .intDivide, .modulo]

/-- The guard
`((op in [BIT_SHIFT_LEFT, BIT_SHIFT_RIGHT]) and expr_2.evaluate()) <= 0`
deciding whether the `continue` is taken for a noncommutative operator.
As parenthesized in the source, the comparison applies to the whole `and`
expression: for a shift operator `True and v2` is `v2`, so the candidate is
skipped when `v2 ≤ 0`; for any other operator `False and v2` short-circuits
to `False`, and Python's `False <= 0` is true (bool is an int subclass with
`False == 0`), so the candidate is always skipped. -/
def skipNoncomm (op : BinaryNoncommOp) (v2 : Int) : Bool :=
  match op with
  | .bitShiftLeft => decide (v2 ≤ 0)
  | .bitShiftRight => decide (v2 ≤ 0)
  | _ => true

/-- The body of the innermost pair loop in `increase_max_score`: commutative
candidates (guarded by `expr_1.evaluate() <= expr_2.evaluate()`) followed by
noncommutative candidates (guarded by `skipNoncomm`). -/
def pairCands (e1 e2 : Expr) : Option (List Expr) := do
  let v1 ← e1.eval
  let v2 ← e2.eval
  let comm :=
    if v1 ≤ v2 then
      commOps.map (fun op => Expr.binary (.comm op) e1 e2)
    else []
  let noncomm :=
    noncommOps.filterMap (fun op =>
      if skipNoncomm op v2 then none
      else some (Expr.binary (.noncomm op) e1 e2))
  return comm ++ noncomm

/-- The loop `for expr_2 in self._get_score_exprs(score_2)`. -/
def pairLoop (e1 : Expr) : List Expr → Option (List Expr)
  | [] => some []
  | e2 :: rest => do
      let c ← pairCands e1 e2
      let r ← pairLoop e1 rest
      return c ++ r

/-- The loop `for expr_1 in self._get_score_exprs(score_1)`. -/
def pairsLoop : List Expr → List Expr → Option (List Expr)
  | [], _ => some []
  | e1 :: rest, b2 => do
      let c ← pairLoop e1 b2
      let r ← pairsLoop rest b2
      return c ++ r

/-- The loop `for score_1 in range(1, self._max_score)`, with
`score_2 = self._max_score - score_1`; bucket lookups can raise `KeyError`
(modelled by `none`). -/
def splitLoop (s : OptState) : List Nat → Option (List Expr)
  | [] => some []
  | s1 :: rest => do
      let b1 ← getScoreExprs s s1
      let b2 ← getScoreExprs s (s.maxScore - s1)
      let c ← pairsLoop b1 b2
      let r ← splitLoop s rest
      return c ++ r

/-- The unary candidate block:
`for expr in bucket: for op in UnaryOperator: append CompositeExpression(op, expr)`. -/
def unaryLoop : List Expr → List Expr
  | [] => []
  | e :: rest => (unaryOps.map fun op => Expr.unary op e) ++ unaryLoop rest

/-- Candidate generation phase of `increase_max_score`: the unary block over
the bucket at the current ceiling, then the binary blocks over every split
`score_1 ∈ range(1, max_score)`. -/
def genCandidates (s : OptState) : Option (List Expr) := do
  let bmax ← getScoreExprs s s.maxScore
  let bins ← splitLoop s (List.range' 1 (s.maxScore - 1))
  return unaryLoop bmax ++ bins

/-- `increase_max_score`: generate all candidates, admit them one by one,
increment `_max_score`, and return the length of the bucket at the new
ceiling.  The result pairs the post-call state with `some count` on normal
return, or `none` when the final bucket lookup raises `KeyError` — by then
`_max_score` has already been incremented and admissions are not rolled
back.  The outer `Option` is an exception escaping generation or admission
(never the case in reachable states, proved below). -/
def increaseMaxScore (s : OptState) : Option (OptState × Option Nat) := do
  let cs ← genCandidates s
  let s1 ← addAll s cs
  let s2 : OptState := { s1 with maxScore := s1.maxScore + 1 }
  match getScoreExprs s2 s2.maxScore with
  | some bucket => return (s2, some bucket.length)
  | none => return (s2, none)

/-- The state after `k` calls to `increase_max_score` starting from a fresh
`ExpressionOptimizer()`.  The state is kept even when the call signals the
final-lookup `KeyError` (the mutation is not rolled back); `none` means an
exception escaped generation or admission. -/
def stepN : Nat → Option OptState
  | 0 => some initState
  | n + 1 => do
      let s ← stepN n
      let (s', _) ← increaseMaxScore s
      return s'

/-- A state the optimizer can actually be in after some number of calls. -/
def Reachable (s : OptState) : Prop := ∃ k, stepN k = some s

/-- The shift guard as a structural property: no subterm anywhere in the
expression is a shift whose right operand evaluates to an integer `≤ 0`. -/
def shiftGuardOk : Expr → Bool
  | .trueE => true
  | .unary _ e => shiftGuardOk e
  | .binary op a b =>
      shiftGuardOk a && shiftGuardOk b &&
        match op with
        | .noncomm .bitShiftLeft =>
            (match b.eval with
             | some v => decide (0 < v)
             | none => true)
        | .noncomm .bitShiftRight =>
            (match b.eval with
             | some v => decide (0 < v)
             | none => true)
        | _ => true

/-- Occurrence count of an expression in a list, by structural equality. -/
def countE (t : Expr) : List Expr → Nat
  | [] => 0
  | e :: rest => (if e = t then 1 else 0) + countE t rest

end ExprOpt

namespace ExprOpt

/-! ## Basic lemmas about the association-list dictionaries -/

theorem alookup_cons {α β : Type} [DecidableEq α] (k : α) (v : β)
    (d : List (α × β)) (k' : α) :
    alookup ((k, v) :: d) k' = if k' = k then some v else alookup d k' := rfl

theorem alookup_none_not_mem {α β : Type} [DecidableEq α] :
    ∀ (d : List (α × β)) (k : α), alookup d k = none → k ∉ d.map Prod.fst := by
  intro d
  induction d with
  | nil => intro k _ h; simp at h
  | cons p rest ih =>
    intro k h hmem
    obtain ⟨kp, vp⟩ := p
    rw [alookup_cons] at h
    by_cases hk : k = kp
    · simp [hk] at h
    · rw [if_neg hk] at h
      rw [List.map_cons, List.mem_cons] at hmem
      rcases hmem with h1 | h1
      · exact hk h1
      · exact ih k h h1

/-! ## Inversion and bookkeeping for `_add_expr_if_better` -/

/-- The state produced by a successful admission. -/
def admitted (s : OptState) (e : Expr) (v : Int) : OptState :=
  { s with
    targs := (v, e) :: s.targs
    minSExprs := bucketAppend s.minSExprs e.score e }

theorem addExpr_eq (s : OptState) (e : Expr) (v : Int) (hv : e.eval = some v) :
    addExprIfBetter s e =
      if (alookup s.targs v).isSome then some (s, false)
      else some (admitted s e v, true) := by
  simp only [addExprIfBetter, hv, Option.bind_eq_bind, Option.some_bind, admitted]
  split <;> rfl

theorem addExpr_inversion {s s' : OptState} {e : Expr} {b : Bool}
    (h : addExprIfBetter s e = some (s', b)) :
    ∃ v, e.eval = some v ∧
      ((b = false ∧ s' = s ∧ (alookup s.targs v).isSome = true) ∨
       (b = true ∧ alookup s.targs v = none ∧ s' = admitted s e v)) := by
  cases hv : e.eval with
  | none => rw [addExprIfBetter, hv] at h; simp at h
  | some v =>
    rw [addExpr_eq s e v hv] at h
    refine ⟨v, rfl, ?_⟩
    by_cases hk : (alookup s.targs v).isSome = true
    · left
      simp [hk] at h
      exact ⟨h.2, h.1.symm, hk⟩
    · right
      simp [hk] at h
      refine ⟨h.2, ?_, h.1.symm⟩
      cases hnn : alookup s.targs v with
      | none => rfl
      | some f => rw [hnn] at hk; simp at hk

theorem addExpr_discard {s : OptState} {e : Expr} {v : Int}
    (hv : e.eval = some v) (hk : (alookup s.targs v).isSome = true) :
    addExprIfBetter s e = some (s, false) := by
  rw [addExpr_eq s e v hv, if_pos hk]

theorem addExpr_maxScore {s s' : OptState} {e : Expr} {b : Bool}
    (h : addExprIfBetter s e = some (s', b)) : s'.maxScore = s.maxScore := by
  obtain ⟨v, _, hc | hc⟩ := addExpr_inversion h
  · rw [hc.2.1]
  · rw [hc.2.2]; rfl

theorem addExpr_targs_mono {s s' : OptState} {e : Expr} {b : Bool}
    (h : addExprIfBetter s e = some (s', b)) :
    ∀ w f, alookup s.targs w = some f → alookup s'.targs w = some f := by
  intro w f hwf
  obtain ⟨v, _, hc | hc⟩ := addExpr_inversion h
  · rw [hc.2.1]; exact hwf
  · rw [hc.2.2]
    show alookup ((v, e) :: s.targs) w = some f
    rw [alookup_cons]
    by_cases hw : w = v
    · rw [hw] at hwf; rw [hc.2.1] at hwf; cases hwf
    · rw [if_neg hw]; exact hwf

theorem addExpr_len {s s' : OptState} {e : Expr} {b : Bool}
    (h : addExprIfBetter s e = some (s', b)) :
    s'.targs.length = s.targs.length + (if b then 1 else 0) ∧
    ((alookup s'.minSExprs e.score).getD []).length
      = ((alookup s.minSExprs e.score).getD []).length + (if b then 1 else 0) ∧
    (∀ sc, sc ≠ e.score → alookup s'.minSExprs sc = alookup s.minSExprs sc) := by
  obtain ⟨v, _, hc | hc⟩ := addExpr_inversion h
  · rw [hc.1, hc.2.1]; simp
  · rw [hc.1, hc.2.2]
    refine ⟨by simp [admitted], ?_, ?_⟩
    · show ((alookup (bucketAppend s.minSExprs e.score e) e.score).getD []).length = _
      rw [bucketAppend, alookup_cons, if_pos rfl]
      simp
    · intro sc hsc
      show alookup (bucketAppend s.minSExprs e.score e) sc = _
      rw [bucketAppend, alookup_cons, if_neg hsc]

end ExprOpt

namespace ExprOpt

/-! ## The state invariant

`Inv s B` collects the facts maintained by the optimizer about its two
indices, with `B` the largest score any bucket may hold (`_max_score`
outside a round, `_max_score + 1` while a round's admissions happen). -/

structure Inv (s : OptState) (B : Nat) : Prop where
  hdom : ∀ sc, (alookup s.minSExprs sc).isSome = true → 1 ≤ sc ∧ sc ≤ B
  hscore : ∀ sc l, alookup s.minSExprs sc = some l → ∀ e ∈ l, e.score = sc
  hnodup : ∀ sc l, alookup s.minSExprs sc = some l → l.Nodup
  hlink : ∀ sc l, alookup s.minSExprs sc = some l → ∀ e ∈ l,
    ∃ v, e.eval = some v ∧ alookup s.targs v = some e
  hkeys : (s.targs.map Prod.fst).Nodup
  htarg : ∀ v e, alookup s.targs v = some e →
    e.eval = some v ∧ shiftGuardOk e = true

theorem inv_mono {s : OptState} {B B' : Nat} (h : Inv s B) (hB : B ≤ B') :
    Inv s B' :=
  ⟨fun sc hsc => ⟨(h.hdom sc hsc).1, le_trans (h.hdom sc hsc).2 hB⟩,
   h.hscore, h.hnodup, h.hlink, h.hkeys, h.htarg⟩

theorem inv_maxScore_irrelevant {s : OptState} {B : Nat} (m : Nat) (h : Inv s B) :
    Inv { s with maxScore := m } B :=
  ⟨h.hdom, h.hscore, h.hnodup, h.hlink, h.hkeys, h.htarg⟩

theorem addExpr_pres {s s' : OptState} {e : Expr} {b : Bool} {B : Nat}
    (hI : Inv s B) (hg : shiftGuardOk e = true)
    (h1 : 1 ≤ e.score) (h2 : e.score ≤ B)
    (h : addExprIfBetter s e = some (s', b)) : Inv s' B := by
  obtain ⟨v, hv, hc | hc⟩ := addExpr_inversion h
  · rw [hc.2.1]; exact hI
  · obtain ⟨-, hnone, hs'⟩ := hc
    subst hs'
    have htnew : ∀ w g, alookup s.targs w = some g →
        alookup ((v, e) :: s.targs) w = some g := by
      intro w g hwg
      rw [alookup_cons]
      by_cases hwv : w = v
      · rw [hwv] at hwg; rw [hwg] at hnone; cases hnone
      · rw [if_neg hwv]; exact hwg
    constructor
    · -- hdom
      intro sc hsc
      simp only [admitted, bucketAppend] at hsc
      rw [alookup_cons] at hsc
      by_cases hsce : sc = e.score
      · exact hsce ▸ ⟨h1, h2⟩
      · rw [if_neg hsce] at hsc
        exact hI.hdom sc hsc
    · -- hscore
      intro sc l hl f hf
      simp only [admitted, bucketAppend] at hl
      rw [alookup_cons] at hl
      by_cases hsce : sc = e.score
      · rw [if_pos hsce] at hl
        cases hl
        rw [List.mem_append] at hf
        rcases hf with hf | hf
        · cases hold : alookup s.minSExprs e.score with
          | none => rw [hold] at hf; simp at hf
          | some l0 =>
            rw [hold] at hf
            simp only [Option.getD_some] at hf
            rw [hsce]
            exact hI.hscore _ _ hold f hf
        · rw [List.mem_singleton] at hf
          rw [hf, hsce]
      · rw [if_neg hsce] at hl
        exact hI.hscore sc l hl f hf
    · -- hnodup
      intro sc l hl
      simp only [admitted, bucketAppend] at hl
      rw [alookup_cons] at hl
      by_cases hsce : sc = e.score
      · rw [if_pos hsce] at hl
        cases hl
        cases hold : alookup s.minSExprs e.score with
        | none => simp
        | some l0 =>
          simp only [Option.getD_some]
          rw [List.nodup_append]
          refine ⟨hI.hnodup _ _ hold, List.nodup_singleton e, ?_⟩
          intro f hf hfe
          rw [List.mem_singleton] at hfe
          subst hfe
          obtain ⟨w, hw, hwt⟩ := hI.hlink _ _ hold f hf
          rw [hv] at hw
          cases hw
          rw [hwt] at hnone
          cases hnone
      · rw [if_neg hsce] at hl
        exact hI.hnodup sc l hl
    · -- hlink
      intro sc l hl f hf
      simp only [admitted, bucketAppend] at hl ⊢
      rw [alookup_cons] at hl
      by_cases hsce : sc = e.score
      · rw [if_pos hsce] at hl
        cases hl
        rw [List.mem_append] at hf
        rcases hf with hf | hf
        · cases hold : alookup s.minSExprs e.score with
          | none => rw [hold] at hf; simp at hf
          | some l0 =>
            rw [hold] at hf
            simp only [Option.getD_some] at hf
            obtain ⟨w, hw, hwt⟩ := hI.hlink _ _ hold f hf
            exact ⟨w, hw, htnew w f hwt⟩
        · rw [List.mem_singleton] at hf
          subst hf
          refine ⟨v, hv, ?_⟩
          rw [alookup_cons, if_pos rfl]
      · rw [if_neg hsce] at hl
        obtain ⟨w, hw, hwt⟩ := hI.hlink sc l hl f hf
        exact ⟨w, hw, htnew w f hwt⟩
    · -- hkeys
      simp only [admitted]
      rw [List.map_cons, List.nodup_cons]
      exact ⟨alookup_none_not_mem s.targs v hnone, hI.hkeys⟩
    · -- htarg
      intro w f hwf
      simp only [admitted] at hwf
      rw [alookup_cons] at hwf
      by_cases hwv : w = v
      · rw [if_pos hwv] at hwf
        cases hwf
        exact ⟨hwv ▸ hv, hg⟩
      · rw [if_neg hwv] at hwf
        exact hI.htarg w f hwf

end ExprOpt


namespace ExprOpt

/-! ## The admission loop -/

theorem addAll_maxScore : ∀ (cs : List Expr) (s s' : OptState),
    addAll s cs = some s' → s'.maxScore = s.maxScore := by
  intro cs
  induction cs with
  | nil => intro s s' h; cases h; rfl
  | cons e rest ih =>
    intro s s' h
    rw [addAll] at h
    cases ha : addExprIfBetter s e with
    | none => rw [ha] at h; cases h
    | some p =>
      obtain ⟨st, bt⟩ := p
      rw [ha] at h
      simp only [Option.bind_eq_bind, Option.some_bind] at h
      rw [ih st s' h, addExpr_maxScore ha]

theorem addAll_pres {B : Nat} : ∀ (cs : List Expr) (s s' : OptState),
    Inv s B →
    (∀ e ∈ cs, shiftGuardOk e = true ∧ 1 ≤ e.score ∧ e.score ≤ B) →
    addAll s cs = some s' →
    Inv s' B ∧
      (∀ w f, alookup s.targs w = some f → alookup s'.targs w = some f) := by
  intro cs
  induction cs with
  | nil =>
    intro s s' hI _ h
    cases h
    exact ⟨hI, fun w f hwf => hwf⟩
  | cons e rest ih =>
    intro s s' hI hgood h
    rw [addAll] at h
    cases ha : addExprIfBetter s e with
    | none => rw [ha] at h; cases h
    | some p =>
      obtain ⟨st, bt⟩ := p
      rw [ha] at h
      simp only [Option.bind_eq_bind, Option.some_bind] at h
      obtain ⟨hge, hg1, hg2⟩ := hgood e (List.mem_cons_self e rest)
      have hIp : Inv st B := addExpr_pres hI hge hg1 hg2 ha
      obtain ⟨hI', hmono⟩ := ih st s'
        hIp (fun f hf => hgood f (List.mem_cons_of_mem e hf)) h
      exact ⟨hI', fun w f hwf => hmono w f (addExpr_targs_mono ha w f hwf)⟩

theorem addAll_count {B : Nat} : ∀ (cs : List Expr) (s s' : OptState),
    (∀ e ∈ cs, e.score = B) → addAll s cs = some s' →
    ((alookup s'.minSExprs B).getD []).length + s.targs.length
      = ((alookup s.minSExprs B).getD []).length + s'.targs.length := by
  intro cs
  induction cs with
  | nil => intro s s' _ h; cases h; rfl
  | cons e rest ih =>
    intro s s' hsc h
    rw [addAll] at h
    cases ha : addExprIfBetter s e with
    | none => rw [ha] at h; cases h
    | some p =>
      obtain ⟨st, bt⟩ := p
      rw [ha] at h
      simp only [Option.bind_eq_bind, Option.some_bind] at h
      have he : e.score = B := hsc e (List.mem_cons_self e rest)
      obtain ⟨hlt, hlb, -⟩ := addExpr_len ha
      have := ih st s' (fun f hf => hsc f (List.mem_cons_of_mem e hf)) h
      rw [he] at hlb
      omega

/-! ## Candidate generation: membership lemmas -/

theorem unaryLoop_mem : ∀ {l : List Expr} {x : Expr}, x ∈ unaryLoop l →
    ∃ e ∈ l, ∃ op, x = Expr.unary op e := by
  intro l
  induction l with
  | nil => intro x hx; simp [unaryLoop] at hx
  | cons e rest ih =>
    intro x hx
    rw [unaryLoop, List.mem_append] at hx
    rcases hx with hx | hx
    · simp only [unaryOps, List.map_cons, List.map_nil, List.mem_cons,
        List.not_mem_nil, or_false] at hx
      rcases hx with hx | hx
      · exact ⟨e, List.mem_cons_self e rest, .minus, hx⟩
      · exact ⟨e, List.mem_cons_self e rest, .bitwiseNot, hx⟩
    · obtain ⟨f, hf, op, hop⟩ := ih hx
      exact ⟨f, List.mem_cons_of_mem e hf, op, hop⟩

theorem skipNoncomm_false {op : BinaryNoncommOp} {v2 : Int}
    (h : skipNoncomm op v2 = false) :
    (op = .bitShiftLeft ∨ op = .bitShiftRight) ∧ 0 < v2 := by
  cases op <;> simp [skipNoncomm] at h ⊢ <;> omega

theorem pairCands_mem {e1 e2 x : Expr} {l : List Expr}
    (h : pairCands e1 e2 = some l) (hx : x ∈ l) :
    ∃ v1 v2, e1.eval = some v1 ∧ e2.eval = some v2 ∧
      ((∃ op, x = Expr.binary (.comm op) e1 e2 ∧ v1 ≤ v2) ∨
       (∃ op, x = Expr.binary (.noncomm op) e1 e2 ∧ skipNoncomm op v2 = false)) := by
  cases hv1 : e1.eval with
  | none => rw [pairCands, hv1] at h; cases h
  | some v1 =>
    cases hv2 : e2.eval with
    | none => rw [pairCands, hv1, hv2] at h; cases h
    | some v2 =>
      rw [pairCands, hv1, hv2] at h
      simp only [Option.bind_eq_bind, Option.some_bind, Option.pure_def,
        Option.some.injEq] at h
      subst h
      refine ⟨v1, v2, rfl, rfl, ?_⟩
      rw [List.mem_append] at hx
      rcases hx with hx | hx
      · left
        by_cases hle : v1 ≤ v2
        · rw [if_pos hle] at hx
          obtain ⟨op, -, hop⟩ := List.mem_map.mp hx
          exact ⟨op, hop.symm, hle⟩
        · rw [if_neg hle] at hx
          cases hx
      · right
        obtain ⟨op, -, hop⟩ := List.mem_filterMap.mp hx
        by_cases hsk : skipNoncomm op v2 = true
        · rw [if_pos hsk] at hop; cases hop
        · rw [if_neg hsk] at hop
          cases hop
          exact ⟨op, rfl, Bool.eq_false_iff.mpr hsk⟩

theorem pairLoop_mem : ∀ {b2 : List Expr} {e1 x : Expr} {l : List Expr},
    pairLoop e1 b2 = some l → x ∈ l →
    ∃ e2 ∈ b2, ∃ pl, pairCands e1 e2 = some pl ∧ x ∈ pl := by
  intro b2
  induction b2 with
  | nil => intro e1 x l h hx; cases h; cases hx
  | cons e2 rest ih =>
    intro e1 x l h hx
    rw [pairLoop] at h
    cases hc : pairCands e1 e2 with
    | none => rw [hc] at h; cases h
    | some c =>
      rw [hc] at h
      simp only [Option.bind_eq_bind, Option.some_bind] at h
      cases hr : pairLoop e1 rest with
      | none => rw [hr] at h; cases h
      | some r =>
        rw [hr] at h
        simp only [Option.some_bind, Option.pure_def, Option.some.injEq] at h
        subst h
        rw [List.mem_append] at hx
        rcases hx with hx | hx
        · exact ⟨e2, List.mem_cons_self e2 rest, c, hc, hx⟩
        · obtain ⟨f, hf, pl, hpl, hxpl⟩ := ih hr hx
          exact ⟨f, List.mem_cons_of_mem e2 hf, pl, hpl, hxpl⟩

theorem pairsLoop_mem : ∀ {b1 b2 : List Expr} {x : Expr} {l : List Expr},
    pairsLoop b1 b2 = some l → x ∈ l →
    ∃ e1 ∈ b1, ∃ pl, pairLoop e1 b2 = some pl ∧ x ∈ pl := by
  intro b1
  induction b1 with
  | nil => intro b2 x l h hx; cases h; cases hx
  | cons e1 rest ih =>
    intro b2 x l h hx
    rw [pairsLoop] at h
    cases hc : pairLoop e1 b2 with
    | none => rw [hc] at h; cases h
    | some c =>
      rw [hc] at h
      simp only [Option.bind_eq_bind, Option.some_bind] at h
      cases hr : pairsLoop rest b2 with
      | none => rw [hr] at h; cases h
      | some r =>
        rw [hr] at h
        simp only [Option.some_bind, Option.pure_def, Option.some.injEq] at h
        subst h
        rw [List.mem_append] at hx
        rcases hx with hx | hx
        · exact ⟨e1, List.mem_cons_self e1 rest, c, hc, hx⟩
        · obtain ⟨f, hf, pl, hpl, hxpl⟩ := ih hr hx
          exact ⟨f, List.mem_cons_of_mem e1 hf, pl, hpl, hxpl⟩

theorem splitLoop_mem {s : OptState} : ∀ {L : List Nat} {x : Expr} {l : List Expr},
    splitLoop s L = some l → x ∈ l →
    ∃ s1 ∈ L, ∃ b1 b2 pl, getScoreExprs s s1 = some b1 ∧
      getScoreExprs s (s.maxScore - s1) = some b2 ∧
      pairsLoop b1 b2 = some pl ∧ x ∈ pl := by
  intro L
  induction L with
  | nil => intro x l h hx; cases h; cases hx
  | cons s1 rest ih =>
    intro x l h hx
    rw [splitLoop] at h
    cases hb1 : getScoreExprs s s1 with
    | none => rw [hb1] at h; cases h
    | some b1 =>
      rw [hb1] at h
      simp only [Option.bind_eq_bind, Option.some_bind] at h
      cases hb2 : getScoreExprs s (s.maxScore - s1) with
      | none => rw [hb2] at h; cases h
      | some b2 =>
        rw [hb2] at h
        simp only [Option.some_bind] at h
        cases hc : pairsLoop b1 b2 with
        | none => rw [hc] at h; cases h
        | some c =>
          rw [hc] at h
          simp only [Option.some_bind] at h
          cases hr : splitLoop s rest with
          | none => rw [hr] at h; cases h
          | some r =>
            rw [hr] at h
            simp only [Option.some_bind, Option.pure_def, Option.some.injEq] at h
            subst h
            rw [List.mem_append] at hx
            rcases hx with hx | hx
            · exact ⟨s1, List.mem_cons_self s1 rest, b1, b2, c, hb1, hb2, hc, hx⟩
            · obtain ⟨t, ht, b1', b2', pl, h1, h2, h3, h4⟩ := ih hr hx
              exact ⟨t, List.mem_cons_of_mem s1 ht, b1', b2', pl, h1, h2, h3, h4⟩

theorem genCandidates_mem {s : OptState} {cs : List Expr} {x : Expr}
    (h : genCandidates s = some cs) (hx : x ∈ cs) :
    (∃ bmax, getScoreExprs s s.maxScore = some bmax ∧ x ∈ unaryLoop bmax) ∨
    (∃ bl, splitLoop s (List.range' 1 (s.maxScore - 1)) = some bl ∧ x ∈ bl) := by
  cases hb : getScoreExprs s s.maxScore with
  | none => rw [genCandidates, hb] at h; cases h
  | some bmax =>
    rw [genCandidates, hb] at h
    simp only [Option.bind_eq_bind, Option.some_bind] at h
    cases hs : splitLoop s (List.range' 1 (s.maxScore - 1)) with
    | none => rw [hs] at h; cases h
    | some bl =>
      rw [hs] at h
      simp only [Option.some_bind, Option.pure_def, Option.some.injEq] at h
      subst h
      rw [List.mem_append] at hx
      rcases hx with hx | hx
      · exact Or.inl ⟨bmax, rfl, hx⟩
      · exact Or.inr ⟨bl, rfl, hx⟩

end ExprOpt

namespace ExprOpt

/-! ## Evaluation and guard helper lemmas -/

theorem eval_unary {e : Expr} {v : Int} (op : UnaryOp) (h : e.eval = some v) :
    (Expr.unary op e).eval = some (op.apply v) := by
  simp only [Expr.eval, h, Option.bind_eq_bind, Option.some_bind, Option.pure_def]

theorem eval_binary {a b : Expr} {v1 v2 : Int} (op : BinaryOp)
    (h1 : a.eval = some v1) (h2 : b.eval = some v2) :
    (Expr.binary op a b).eval = op.apply v1 v2 := by
  simp only [Expr.eval, h1, h2, Option.bind_eq_bind, Option.some_bind]

theorem shiftGuardOk_unary (op : UnaryOp) (e : Expr) :
    shiftGuardOk (Expr.unary op e) = shiftGuardOk e := rfl

theorem shiftGuardOk_comm (op : BinaryCommOp) (a b : Expr) :
    shiftGuardOk (Expr.binary (.comm op) a b)
      = (shiftGuardOk a && shiftGuardOk b) := by
  simp [shiftGuardOk]

theorem shiftGuardOk_shl (a b : Expr) (v : Int) (hb : b.eval = some v) :
    shiftGuardOk (Expr.binary (.noncomm .bitShiftLeft) a b)
      = (shiftGuardOk a && shiftGuardOk b && decide (0 < v)) := by
  simp [shiftGuardOk, hb]

theorem shiftGuardOk_shr (a b : Expr) (v : Int) (hb : b.eval = some v) :
    shiftGuardOk (Expr.binary (.noncomm .bitShiftRight) a b)
      = (shiftGuardOk a && shiftGuardOk b && decide (0 < v)) := by
  simp [shiftGuardOk, hb]

/-! ## Every generated candidate is well-behaved -/

theorem gen_good {s : OptState} {cs : List Expr} (hI : Inv s s.maxScore)
    (h : genCandidates s = some cs) :
    ∀ x ∈ cs, (∃ v, x.eval = some v) ∧ shiftGuardOk x = true ∧
      x.score = s.maxScore + 1 := by
  intro x hx
  rcases genCandidates_mem h hx with ⟨bmax, hb, hxu⟩ | ⟨bl, hs, hxb⟩
  · obtain ⟨e, he, op, hop⟩ := unaryLoop_mem hxu
    subst hop
    have hesc : e.score = s.maxScore := hI.hscore _ _ hb e he
    obtain ⟨v, hv, hvt⟩ := hI.hlink _ _ hb e he
    have hge : shiftGuardOk e = true := (hI.htarg _ _ hvt).2
    refine ⟨⟨op.apply v, eval_unary op hv⟩, ?_, ?_⟩
    · rw [shiftGuardOk_unary]; exact hge
    · rw [Expr.score, hesc]
  · obtain ⟨s1, hs1, b1, b2, pl, hb1, hb2, hpl, hxpl⟩ := splitLoop_mem hs hxb
    obtain ⟨e1, he1, pll, hpll, hxpll⟩ := pairsLoop_mem hpl hxpl
    obtain ⟨e2, he2, pc, hpc, hxpc⟩ := pairLoop_mem hpll hxpll
    obtain ⟨v1, v2, hv1, hv2, hcase⟩ := pairCands_mem hpc hxpc
    rw [List.mem_range'_1] at hs1
    have he1s : e1.score = s1 := hI.hscore _ _ hb1 e1 he1
    have he2s : e2.score = s.maxScore - s1 := hI.hscore _ _ hb2 e2 he2
    obtain ⟨w1, hw1, hwt1⟩ := hI.hlink _ _ hb1 e1 he1
    obtain ⟨w2, hw2, hwt2⟩ := hI.hlink _ _ hb2 e2 he2
    have hg1 : shiftGuardOk e1 = true := (hI.htarg _ _ hwt1).2
    have hg2 : shiftGuardOk e2 = true := (hI.htarg _ _ hwt2).2
    have hsum : e1.score + e2.score = s.maxScore := by
      rw [he1s, he2s]; omega
    rcases hcase with ⟨op, hop, hle⟩ | ⟨op, hop, hskip⟩
    · subst hop
      refine ⟨⟨op.apply v1 v2, ?_⟩, ?_, ?_⟩
      · rw [eval_binary _ hv1 hv2]; rfl
      · rw [shiftGuardOk_comm, hg1, hg2]; rfl
      · rw [Expr.score]; omega
    · obtain ⟨hopsh, hv2pos⟩ := skipNoncomm_false hskip
      have hv2n : ¬ v2 < 0 := by omega
      rcases hopsh with h' | h'
      · subst h'; subst hop
        refine ⟨⟨v1 * 2 ^ v2.toNat, ?_⟩, ?_, ?_⟩
        · rw [eval_binary _ hv1 hv2]
          show pyShiftLeft v1 v2 = _
          rw [pyShiftLeft, if_neg hv2n]
        · rw [shiftGuardOk_shl _ _ _ hv2, hg1, hg2]
          simp [hv2pos]
        · rw [Expr.score]; omega
      · subst h'; subst hop
        refine ⟨⟨Int.fdiv v1 (2 ^ v2.toNat), ?_⟩, ?_, ?_⟩
        · rw [eval_binary _ hv1 hv2]
          show pyShiftRight v1 v2 = _
          rw [pyShiftRight, if_neg hv2n]
        · rw [shiftGuardOk_shr _ _ _ hv2, hg1, hg2]
          simp [hv2pos]
        · rw [Expr.score]; omega

/-! ## One round: inversion and preservation -/

theorem step_inversion {s s' : OptState} {r : Option Nat}
    (h : increaseMaxScore s = some (s', r)) :
    ∃ cs s1, genCandidates s = some cs ∧ addAll s cs = some s1 ∧
      s' = { s1 with maxScore := s1.maxScore + 1 } ∧
      r = (alookup s1.minSExprs (s1.maxScore + 1)).map List.length := by
  cases hg : genCandidates s with
  | none => rw [increaseMaxScore, hg] at h; cases h
  | some cs =>
    rw [increaseMaxScore, hg] at h
    simp only [Option.bind_eq_bind, Option.some_bind] at h
    cases ha : addAll s cs with
    | none => rw [ha] at h; cases h
    | some s1 =>
      rw [ha] at h
      simp only [Option.some_bind, getScoreExprs] at h
      refine ⟨cs, s1, rfl, ha, ?_⟩
      cases hb : alookup s1.minSExprs (s1.maxScore + 1) with
      | none =>
        rw [hb] at h
        simp only [Option.pure_def, Option.some.injEq, Prod.mk.injEq] at h
        exact ⟨h.1.symm, h.2.symm⟩
      | some bucket =>
        rw [hb] at h
        simp only [Option.pure_def, Option.some.injEq, Prod.mk.injEq] at h
        exact ⟨h.1.symm, h.2.symm⟩

/-- The well-formedness of a reachable state. -/
def WF (s : OptState) : Prop := 1 ≤ s.maxScore ∧ Inv s s.maxScore

theorem step_WF {s s' : OptState} {r : Option Nat} (hW : WF s)
    (h : increaseMaxScore s = some (s', r)) :
    WF s' ∧ s'.maxScore = s.maxScore + 1 ∧
      (∀ w f, alookup s.targs w = some f → alookup s'.targs w = some f) ∧
      (∀ n, r = some n → s'.targs.length = s.targs.length + n) := by
  obtain ⟨hmax, hI⟩ := hW
  obtain ⟨cs, s1, hg, ha, hs', hr⟩ := step_inversion h
  have hgood := gen_good hI hg
  have hIup : Inv s (s.maxScore + 1) := inv_mono hI (Nat.le_succ _)
  obtain ⟨hI1, hmono⟩ := addAll_pres cs s s1 hIup
    (fun e he => ⟨(hgood e he).2.1,
      by rw [(hgood e he).2.2]; omega,
      by rw [(hgood e he).2.2]⟩) ha
  have hms1 : s1.maxScore = s.maxScore := addAll_maxScore cs s s1 ha
  have hb0 : alookup s.minSExprs (s.maxScore + 1) = none := by
    cases hbb : alookup s.minSExprs (s.maxScore + 1) with
    | none => rfl
    | some l =>
      have := (hI.hdom (s.maxScore + 1) (by rw [hbb]; rfl)).2
      omega
  subst hs'
  refine ⟨⟨?_, ?_⟩, ?_, ?_, ?_⟩
  · show 1 ≤ s1.maxScore + 1
    omega
  · show Inv { s1 with maxScore := s1.maxScore + 1 } (s1.maxScore + 1)
    rw [hms1]
    exact inv_maxScore_irrelevant (s.maxScore + 1) hI1
  · show s1.maxScore + 1 = s.maxScore + 1
    omega
  · exact fun w f hwf => hmono w f hwf
  · intro n hn
    rw [hr] at hn
    cases hb : alookup s1.minSExprs (s1.maxScore + 1) with
    | none => rw [hb] at hn; cases hn
    | some bucket =>
      rw [hb] at hn
      have hn2 : bucket.length = n := Option.some.inj hn
      have hcount := addAll_count cs s s1 (fun e he => (hgood e he).2.2) ha
      rw [hb0] at hcount
      rw [hms1] at hb
      rw [hb] at hcount
      simp only [Option.getD_some, Option.getD_none, List.length_nil] at hcount
      show s1.targs.length = s.targs.length + n
      omega

/-! ## Iterated rounds -/

theorem stepN_inversion {k : Nat} {s' : OptState} (h : stepN (k + 1) = some s') :
    ∃ s r, stepN k = some s ∧ increaseMaxScore s = some (s', r) := by
  rw [stepN] at h
  cases hs : stepN k with
  | none => rw [hs] at h; cases h
  | some s =>
    rw [hs] at h
    simp only [Option.bind_eq_bind, Option.some_bind] at h
    cases hi : increaseMaxScore s with
    | none => rw [hi] at h; cases h
    | some p =>
      obtain ⟨s'', r⟩ := p
      rw [hi] at h
      simp only [Option.some_bind, Option.pure_def, Option.some.injEq] at h
      subst h
      exact ⟨s, r, rfl, hi⟩

theorem init_WF : WF initState := by
  refine ⟨le_refl 1, ?_, ?_, ?_, ?_, ?_, ?_⟩
  · intro sc hsc
    by_cases h1 : sc = 1
    · exact ⟨h1.ge, h1.le⟩
    · exfalso
      simp [initState, alookup, h1] at hsc
  · intro sc l hl f hf
    by_cases h1 : sc = 1
    · subst h1
      simp [initState, alookup] at hl
      subst hl
      rw [List.mem_singleton] at hf
      subst hf
      rfl
    · simp [initState, alookup, h1] at hl
  · intro sc l hl
    by_cases h1 : sc = 1
    · subst h1
      simp [initState, alookup] at hl
      subst hl
      exact List.nodup_singleton _
    · simp [initState, alookup, h1] at hl
  · intro sc l hl f hf
    by_cases h1 : sc = 1
    · subst h1
      simp [initState, alookup] at hl
      subst hl
      rw [List.mem_singleton] at hf
      subst hf
      exact ⟨1, rfl, by simp [initState, alookup]⟩
    · simp [initState, alookup, h1] at hl
  · simp [initState]
  · intro v e hve
    by_cases h1 : v = 1
    · subst h1
      simp [initState, alookup] at hve
      subst hve
      exact ⟨rfl, rfl⟩
    · simp [initState, alookup, h1] at hve

theorem stepN_WF : ∀ k s, stepN k = some s → WF s := by
  intro k
  induction k with
  | zero => intro s h; cases h; exact init_WF
  | succ n ih =>
    intro s h
    obtain ⟨t, r, ht, hi⟩ := stepN_inversion h
    exact (step_WF (ih t ht) hi).1

theorem stepN_maxScore : ∀ k s, stepN k = some s → s.maxScore = 1 + k := by
  intro k
  induction k with
  | zero => intro s h; cases h; rfl
  | succ n ih =>
    intro s h
    obtain ⟨t, r, ht, hi⟩ := stepN_inversion h
    have := (step_WF (stepN_WF n t ht) hi).2.1
    rw [this, ih t ht]
    omega

theorem stepN_targs_mono : ∀ j k s s', k ≤ j →
    stepN k = some s → stepN j = some s' →
    ∀ w f, alookup s.targs w = some f → alookup s'.targs w = some f := by
  intro j
  induction j with
  | zero =>
    intro k s s' hk h h'
    have hk0 : k = 0 := Nat.le_zero.mp hk
    subst hk0
    rw [h] at h'
    cases h'
    exact fun w f hwf => hwf
  | succ n ih =>
    intro k s s' hk h h'
    obtain ⟨t, r, ht, hi⟩ := stepN_inversion h'
    rcases Nat.lt_or_ge k (n + 1) with hlt | hge
    · have hkn : k ≤ n := Nat.lt_succ_iff.mp hlt
      intro w f hwf
      have hmono := (step_WF (stepN_WF n t ht) hi).2.2.1
      exact hmono w f (ih k s t hkn h ht w f hwf)
    · have hkeq : k = n + 1 := le_antisymm hk hge
      subst hkeq
      rw [h] at h'
      cases h'
      exact fun w f hwf => hwf

end ExprOpt

namespace ExprOpt

/-! ## Counting occurrences among the generated candidates -/

theorem countE_append (t : Expr) : ∀ (l1 l2 : List Expr),
    countE t (l1 ++ l2) = countE t l1 + countE t l2 := by
  intro l1 l2
  induction l1 with
  | nil => simp [countE]
  | cons e rest ih => simp [countE, ih]; omega

theorem countE_eq_zero_of_not_mem {t : Expr} : ∀ {l : List Expr},
    t ∉ l → countE t l = 0 := by
  intro l
  induction l with
  | nil => intro _; rfl
  | cons e rest ih =>
    intro h
    rw [List.mem_cons, not_or] at h
    rw [countE, if_neg (fun he => h.1 he.symm), ih h.2]

theorem countE_eq_one_of_nodup {t : Expr} : ∀ {l : List Expr},
    l.Nodup → t ∈ l → countE t l = 1 := by
  intro l
  induction l with
  | nil => intro _ hm; cases hm
  | cons e rest ih =>
    intro hnd hm
    rw [List.nodup_cons] at hnd
    rw [List.mem_cons] at hm
    rcases hm with hm | hm
    · subst hm
      rw [countE, if_pos rfl, countE_eq_zero_of_not_mem hnd.1]
    · have het : ¬ e = t := fun he => hnd.1 (he ▸ hm)
      rw [countE, if_neg het, ih hnd.2 hm]

theorem pairCands_countE {e1 e2 e : Expr} (op : BinaryCommOp) {pl : List Expr}
    (h : pairCands e1 e2 = some pl) :
    countE (Expr.binary (.comm op) e e) pl
      = if e1 = e ∧ e2 = e then 1 else 0 := by
  cases hv1 : e1.eval with
  | none => rw [pairCands, hv1] at h; cases h
  | some v1 =>
    cases hv2 : e2.eval with
    | none => rw [pairCands, hv1, hv2] at h; cases h
    | some v2 =>
      rw [pairCands, hv1, hv2] at h
      simp only [Option.bind_eq_bind, Option.some_bind, Option.pure_def,
        Option.some.injEq] at h
      subst h
      rw [countE_append]
      have hnc : countE (Expr.binary (.comm op) e e)
          (noncommOps.filterMap (fun op2 =>
            if skipNoncomm op2 v2 then none
            else some (Expr.binary (.noncomm op2) e1 e2))) = 0 := by
        apply countE_eq_zero_of_not_mem
        intro hmem
        obtain ⟨op2, -, hop2⟩ := List.mem_filterMap.mp hmem
        by_cases hsk : skipNoncomm op2 v2 = true
        · rw [if_pos hsk] at hop2; cases hop2
        · rw [if_neg hsk] at hop2
          cases hop2
      rw [hnc]
      by_cases hee : e1 = e ∧ e2 = e
      · obtain ⟨h1, h2⟩ := hee
        subst h1
        subst h2
        have hvv : v1 = v2 := by
          rw [hv1] at hv2
          exact Option.some.inj hv2
        subst hvv
        rw [if_pos (le_refl v1), if_pos ⟨rfl, rfl⟩]
        cases op <;> simp [commOps, countE]
      · rw [if_neg hee]
        have : countE (Expr.binary (.comm op) e e)
            (if v1 ≤ v2 then
              commOps.map (fun op2 => Expr.binary (.comm op2) e1 e2)
             else []) = 0 := by
          by_cases hle : v1 ≤ v2
          · rw [if_pos hle]
            apply countE_eq_zero_of_not_mem
            intro hmem
            obtain ⟨op2, -, hop2⟩ := List.mem_map.mp hmem
            rw [Expr.binary.injEq] at hop2
            exact hee ⟨hop2.2.1, hop2.2.2⟩
          · rw [if_neg hle]; rfl
        rw [this]

theorem pairLoop_countE {e1 e : Expr} (op : BinaryCommOp) :
    ∀ {b2 : List Expr} {l : List Expr}, pairLoop e1 b2 = some l →
    countE (Expr.binary (.comm op) e e) l
      = if e1 = e then countE e b2 else 0 := by
  intro b2
  induction b2 with
  | nil =>
    intro l h
    cases h
    simp [countE]
  | cons e2 rest ih =>
    intro l h
    rw [pairLoop] at h
    cases hc : pairCands e1 e2 with
    | none => rw [hc] at h; cases h
    | some c =>
      rw [hc] at h
      simp only [Option.bind_eq_bind, Option.some_bind] at h
      cases hr : pairLoop e1 rest with
      | none => rw [hr] at h; cases h
      | some r =>
        rw [hr] at h
        simp only [Option.some_bind, Option.pure_def, Option.some.injEq] at h
        subst h
        rw [countE_append, pairCands_countE op hc, ih hr, countE]
        by_cases h1 : e1 = e <;> by_cases h2 : e2 = e <;>
          simp [h1, h2]

theorem pairsLoop_countE {e : Expr} (op : BinaryCommOp) :
    ∀ {b1 b2 : List Expr} {l : List Expr}, pairsLoop b1 b2 = some l →
    countE (Expr.binary (.comm op) e e) l = countE e b1 * countE e b2 := by
  intro b1
  induction b1 with
  | nil =>
    intro b2 l h
    cases h
    simp [countE]
  | cons e1 rest ih =>
    intro b2 l h
    rw [pairsLoop] at h
    cases hc : pairLoop e1 b2 with
    | none => rw [hc] at h; cases h
    | some c =>
      rw [hc] at h
      simp only [Option.bind_eq_bind, Option.some_bind] at h
      cases hr : pairsLoop rest b2 with
      | none => rw [hr] at h; cases h
      | some r =>
        rw [hr] at h
        simp only [Option.some_bind, Option.pure_def, Option.some.injEq] at h
        subst h
        rw [countE_append, pairLoop_countE op hc, ih hr, countE]
        by_cases h1 : e1 = e
        · simp [h1]
          ring
        · simp [h1]

theorem splitLoop_countE {s : OptState} {e : Expr} (op : BinaryCommOp) :
    ∀ {L : List Nat} {l : List Expr}, splitLoop s L = some l →
    countE (Expr.binary (.comm op) e e) l
      = (L.map (fun s1 =>
          countE e ((getScoreExprs s s1).getD []) *
          countE e ((getScoreExprs s (s.maxScore - s1)).getD []))).sum := by
  intro L
  induction L with
  | nil =>
    intro l h
    cases h
    simp [countE]
  | cons s1 rest ih =>
    intro l h
    rw [splitLoop] at h
    cases hb1 : getScoreExprs s s1 with
    | none => rw [hb1] at h; cases h
    | some b1 =>
      rw [hb1] at h
      simp only [Option.bind_eq_bind, Option.some_bind] at h
      cases hb2 : getScoreExprs s (s.maxScore - s1) with
      | none => rw [hb2] at h; cases h
      | some b2 =>
        rw [hb2] at h
        simp only [Option.some_bind] at h
        cases hc : pairsLoop b1 b2 with
        | none => rw [hc] at h; cases h
        | some c =>
          rw [hc] at h
          simp only [Option.some_bind] at h
          cases hr : splitLoop s rest with
          | none => rw [hr] at h; cases h
          | some r =>
            rw [hr] at h
            simp only [Option.some_bind, Option.pure_def, Option.some.injEq] at h
            subst h
            rw [countE_append, pairsLoop_countE op hc, ih hr,
              List.map_cons, List.sum_cons, hb1, hb2]
            simp

theorem unaryLoop_countE_binary (op : BinaryOp) (a b : Expr) (l : List Expr) :
    countE (Expr.binary op a b) (unaryLoop l) = 0 := by
  apply countE_eq_zero_of_not_mem
  intro hmem
  obtain ⟨f, -, op2, hop2⟩ := unaryLoop_mem hmem
  cases hop2

theorem sum_indicator_zero {a : Nat} : ∀ {L : List Nat}, a ∉ L →
    (L.map (fun x => if x = a then (1 : Nat) else 0)).sum = 0 := by
  intro L
  induction L with
  | nil => intro _; rfl
  | cons x rest ih =>
    intro h
    rw [List.mem_cons, not_or] at h
    rw [List.map_cons, List.sum_cons, if_neg (fun hx => h.1 hx.symm), ih h.2]

theorem sum_indicator_one {a : Nat} : ∀ {L : List Nat}, L.Nodup → a ∈ L →
    (L.map (fun x => if x = a then (1 : Nat) else 0)).sum = 1 := by
  intro L
  induction L with
  | nil => intro _ hm; cases hm
  | cons x rest ih =>
    intro hnd hm
    rw [List.nodup_cons] at hnd
    rw [List.mem_cons] at hm
    rw [List.map_cons, List.sum_cons]
    rcases hm with hm | hm
    · subst hm
      rw [if_pos rfl, sum_indicator_zero hnd.1]
    · have hxa : ¬ x = a := fun hx => hnd.1 (hx.symm ▸ hm)
      rw [if_neg hxa, ih hnd.2 hm]

end ExprOpt

namespace ExprOpt

/-! ## Auxiliary inversion for the candidate list -/

theorem genCandidates_inversion {s : OptState} {cs : List Expr}
    (h : genCandidates s = some cs) :
    ∃ bmax bl, getScoreExprs s s.maxScore = some bmax ∧
      splitLoop s (List.range' 1 (s.maxScore - 1)) = some bl ∧
      cs = unaryLoop bmax ++ bl := by
  cases hb : getScoreExprs s s.maxScore with
  | none => rw [genCandidates, hb] at h; cases h
  | some bmax =>
    rw [genCandidates, hb] at h
    simp only [Option.bind_eq_bind, Option.some_bind] at h
    cases hs : splitLoop s (List.range' 1 (s.maxScore - 1)) with
    | none => rw [hs] at h; cases h
    | some bl =>
      rw [hs] at h
      simp only [Option.some_bind, Option.pure_def, Option.some.injEq] at h
      exact ⟨bmax, bl, rfl, rfl, h.symm⟩

/-! ## Convenience concrete states (used by witnesses and counterexamples) -/

/-- The optimizer state after one round (ceiling 2). -/
def roundOneState : OptState := (stepN 1).getD initState

/-- The optimizer state after three rounds (ceiling 4). -/
def roundThreeState : OptState := (stepN 3).getD initState

/-- The candidate list `new_exprs` generated by the round after `k` rounds
have already run. -/
def candsAfter (k : Nat) : Option (List Expr) := do
  let s ← stepN k
  genCandidates s

/-- A state whose round admits nothing: the only two candidates (`-(True)`
and `~(True)`) evaluate to values already in the Target Index. -/
def stuckState : OptState :=
  { maxScore := 1
    minSExprs := [(1, [Expr.trueE])]
    targs := [(1, Expr.trueE),
              (-1, Expr.unary .minus Expr.trueE),
              (-2, Expr.unary .bitwiseNot Expr.trueE)] }

/-- `(True)-(~(True))`: score 4, value `1 - (-2) = 3`. -/
def exprThree : Expr :=
  Expr.binary (.noncomm .subtract) Expr.trueE (Expr.unary .bitwiseNot Expr.trueE)

/-! ## The claims -/

/-- C6: the base expression has score 1; a unary composite has the child's
score plus one; a binary composite has the sum of the children's scores
plus one. -/
theorem C6_composite_scores :
    (∀ op a, (Expr.unary op a).score = a.score + 1) ∧
    (∀ op a b, (Expr.binary op a b).score = a.score + b.score + 1) ∧
    Expr.trueE.score = 1 :=
  ⟨fun _ _ => rfl, fun _ _ _ => rfl, rfl⟩

/-- C7: after `k` calls to `increase_max_score` from a fresh optimizer the
ceiling `max_score` equals `1 + k`. -/
theorem C7_ceiling_after_rounds :
    ∀ k s, stepN k = some s → s.maxScore = 1 + k :=
  stepN_maxScore

/-- C7 witness: after two rounds the ceiling is 3. -/
theorem C7_ceiling_witness :
    stepN 2 = some ((stepN 2).getD initState) ∧
    ((stepN 2).getD initState).maxScore = 1 + 2 :=
  ⟨by decide, C7_ceiling_after_rounds 2 ((stepN 2).getD initState) (by decide)⟩

/-- C8: in every reachable state, `_get_score_exprs` at a score strictly
above the ceiling raises `KeyError` (a `LookupError`), modelled by `none`,
rather than returning a list. -/
theorem C8_lookup_above_ceiling (s : OptState) (h : Reachable s) (sc : Nat)
    (hsc : s.maxScore < sc) : getScoreExprs s sc = none := by
  obtain ⟨k, hk⟩ := h
  have hI := (stepN_WF k s hk).2
  cases hb : alookup s.minSExprs sc with
  | none => exact hb
  | some l =>
    have := (hI.hdom sc (by rw [hb]; rfl)).2
    omega

/-- C8 witness: the fresh optimizer (ceiling 1) has no bucket at score 2. -/
theorem C8_lookup_witness : getScoreExprs initState 2 = none :=
  C8_lookup_above_ceiling initState ⟨0, rfl⟩ 2 (by decide)

/-- C3: the Target Index holds at most one expression per value (its keys
are distinct); `_add_expr_if_better` discards any candidate whose value is
already a key, leaving the state unchanged; and an entry, once admitted, is
still present unchanged in every later reachable state. -/
theorem C3_target_index_permanence (k j : Nat) (s s' : OptState) (v : Int)
    (e : Expr) (hkj : k ≤ j) (hk : stepN k = some s) (hj : stepN j = some s') :
    (s.targs.map Prod.fst).Nodup ∧
    (∀ c w, c.eval = some w → (alookup s.targs w).isSome = true →
      addExprIfBetter s c = some (s, false)) ∧
    (alookup s.targs v = some e → alookup s'.targs v = some e) :=
  ⟨(stepN_WF k s hk).2.hkeys,
   fun _ _ hw hkey => addExpr_discard hw hkey,
   fun hv => stepN_targs_mono j k s s' hkj hk hj v e hv⟩

/-- C3 witness: the base entry `1 ↦ True` admitted at construction is still
present after one round. -/
theorem C3_permanence_witness :
    alookup roundOneState.targs 1 = some Expr.trueE :=
  (C3_target_index_permanence 0 1 initState roundOneState 1 Expr.trueE
    (by decide) rfl (by decide)).2.2 (by decide)

/-- C4: in every reachable state, every expression stored in either index
satisfies the shift guard: no subterm is a shift whose right operand
evaluates to an integer `≤ 0`. -/
theorem C4_shift_guard_invariant (s : OptState) (h : Reachable s) :
    (∀ sc l, getScoreExprs s sc = some l → ∀ e ∈ l, shiftGuardOk e = true) ∧
    (∀ v e, alookup s.targs v = some e → shiftGuardOk e = true) := by
  obtain ⟨k, hk⟩ := h
  have hI := (stepN_WF k s hk).2
  constructor
  · intro sc l hl e he
    obtain ⟨w, hw, hwt⟩ := hI.hlink sc l hl e he
    exact (hI.htarg w e hwt).2
  · intro v e hv
    exact (hI.htarg v e hv).2

/-- C4 witness: the admitted shift expression `(~(True))<<(True)` (value
`-4`, present after three rounds) satisfies the guard. -/
theorem C4_shift_guard_witness :
    shiftGuardOk (Expr.binary (.noncomm .bitShiftLeft)
      (Expr.unary .bitwiseNot Expr.trueE) Expr.trueE) = true :=
  (C4_shift_guard_invariant roundThreeState ⟨3, by decide⟩).2 (-4)
    (Expr.binary (.noncomm .bitShiftLeft)
      (Expr.unary .bitwiseNot Expr.trueE) Expr.trueE) (by decide)

/-- C9: a successful call to `increase_max_score` returns exactly the
number of expressions admitted during the call — the Target Index grows by
exactly the returned count. -/
theorem C9_return_counts_new_targets (s s' : OptState) (n : Nat)
    (hR : Reachable s) (h : increaseMaxScore s = some (s', some n)) :
    s'.targs.length = s.targs.length + n := by
  obtain ⟨k, hk⟩ := hR
  exact (step_WF (stepN_WF k s hk) h).2.2.2 n rfl

/-- C9 witness: the first round returns 2 and adds two Target Index
entries (for `-1` and `-2`). -/
theorem C9_return_witness :
    roundOneState.targs.length = initState.targs.length + 2 :=
  C9_return_counts_new_targets initState roundOneState 2 ⟨0, rfl⟩ (by decide)

/-- C10: when a round admits nothing (no bucket appears at the new score),
`increase_max_score` still increments the ceiling and then signals the
`KeyError` (a `LookupError`) from the final bucket lookup — modelled by the
returned count being `none` — with the state change not rolled back. -/
theorem C10_zero_admissions_keyerror (s s1 : OptState) (cs : List Expr)
    (hg : genCandidates s = some cs) (ha : addAll s cs = some s1)
    (hb : alookup s1.minSExprs (s1.maxScore + 1) = none) :
    increaseMaxScore s = some ({ s1 with maxScore := s1.maxScore + 1 }, none) := by
  rw [increaseMaxScore, hg]
  simp only [Option.bind_eq_bind, Option.some_bind]
  rw [ha]
  simp only [Option.some_bind, getScoreExprs]
  rw [hb]
  rfl

/-- C10 witness: from a state whose two candidates are both duplicates, the
round raises (returns `none`) with the ceiling already incremented. -/
theorem C10_keyerror_witness :
    increaseMaxScore stuckState = some ({ stuckState with maxScore := 2 }, none) :=
  C10_zero_admissions_keyerror stuckState stuckState
    [Expr.unary .minus Expr.trueE, Expr.unary .bitwiseNot Expr.trueE]
    (by decide) (by decide) (by decide)

end ExprOpt

namespace ExprOpt

/-- C1 (counterexample to the claim, exhibiting the misparenthesized guard):
after one round (ceiling 2), `True` is stored at score 1, so the split
`1 + 1 = 2` iterates the pair `(True, True)` (value 1 on both sides).  The
shift candidates are generated (right value `1 > 0`) but NO candidate is
generated for subtraction, exponentiation, integer division or modulo: the
guard `((op in [SHL, SHR]) and expr_2.evaluate()) <= 0` is parenthesized so
that for a non-shift operator it reads `False <= 0`, which is true in
Python, and every such candidate is skipped — contradicting the claim (and
the comment in the source, which intends the guard for bit-shifts only). -/
theorem C1_noncomm_generation_bug :
    ((stepN 1).map (fun s => s.maxScore)) = some 2 ∧
    ((stepN 1).bind (fun s => getScoreExprs s 1)) = some [Expr.trueE] ∧
    (candsAfter 1).isSome = true ∧
    Expr.binary (.noncomm .bitShiftLeft) Expr.trueE Expr.trueE
      ∈ (candsAfter 1).getD [] ∧
    Expr.binary (.noncomm .bitShiftRight) Expr.trueE Expr.trueE
      ∈ (candsAfter 1).getD [] ∧
    Expr.binary (.noncomm .subtract) Expr.trueE Expr.trueE
      ∉ (candsAfter 1).getD [] ∧
    Expr.binary (.noncomm .exponentiate) Expr.trueE Expr.trueE
      ∉ (candsAfter 1).getD [] ∧
    Expr.binary (.noncomm .intDivide) Expr.trueE Expr.trueE
      ∉ (candsAfter 1).getD [] ∧
    Expr.binary (.noncomm .modulo) Expr.trueE Expr.trueE
      ∉ (candsAfter 1).getD [] := by decide

/-- C2 (counterexample to completeness): `(True)-(~(True))` has score 4 and
value 3 under the full operator catalog, so 3 is reachable at score ≤ 4;
but after three rounds (ceiling 4) the Target Index has no key 3, because
the misparenthesized guard (see C1) prevents any subtraction candidate from
ever being generated. -/
theorem C2_completeness_fails :
    exprThree.score = 4 ∧ exprThree.eval = some 3 ∧
    ((stepN 3).map (fun s => s.maxScore)) = some 4 ∧
    ((stepN 3).bind (fun s => alookup s.targs 3)) = none := by decide

/-- C5: a commutative candidate is generated only when the left value is
`≤` the right value; and for stored expressions `e1`, `e2` iterated by a
valid split with equal values, `e1` and `e2` are the same expression (the
indices never hold two expressions with one value) and, for each
commutative operator, that single candidate appears exactly once in the
round's generated list. -/
theorem C5_commutative_pruning (s : OptState) (cs : List Expr)
    (hR : Reachable s) (hgen : genCandidates s = some cs) :
    (∀ op a b, Expr.binary (.comm op) a b ∈ cs →
      ∃ va vb, a.eval = some va ∧ b.eval = some vb ∧ va ≤ vb) ∧
    (∀ s1 s2 b1 b2 e1 e2, s1 + s2 = s.maxScore → 1 ≤ s1 → s1 < s.maxScore →
      getScoreExprs s s1 = some b1 → getScoreExprs s s2 = some b2 →
      e1 ∈ b1 → e2 ∈ b2 → e1.eval = e2.eval →
      e1 = e2 ∧ ∀ op, countE (Expr.binary (.comm op) e1 e2) cs = 1) := by
  obtain ⟨k, hk⟩ := hR
  have hW := stepN_WF k s hk
  have hmax := hW.1
  have hI := hW.2
  constructor
  · intro op a b hx
    rcases genCandidates_mem hgen hx with ⟨bmax, hb, hxu⟩ | ⟨bl, hs, hxb⟩
    · obtain ⟨e, -, op2, hop⟩ := unaryLoop_mem hxu
      cases hop
    · obtain ⟨s1, -, b1, b2, pl, -, -, hpl, hxpl⟩ := splitLoop_mem hs hxb
      obtain ⟨e1, -, pll, hpll, hxpll⟩ := pairsLoop_mem hpl hxpl
      obtain ⟨e2, -, pc, hpc, hxpc⟩ := pairLoop_mem hpll hxpll
      obtain ⟨v1, v2, hv1, hv2, hcase⟩ := pairCands_mem hpc hxpc
      rcases hcase with ⟨op2, hop2, hle⟩ | ⟨op2, hop2, -⟩
      · rw [Expr.binary.injEq, BinaryOp.comm.injEq] at hop2
        obtain ⟨hopeq, he1, he2⟩ := hop2
        subst he1
        subst he2
        exact ⟨v1, v2, hv1, hv2, hle⟩
      · rw [Expr.binary.injEq] at hop2
        cases hop2.1
  · intro s1 s2 b1 b2 e1 e2 hsum hge1 hlt hb1 hb2 he1 he2 heval
    obtain ⟨w1, hw1, hwt1⟩ := hI.hlink s1 b1 hb1 e1 he1
    obtain ⟨w2, hw2, hwt2⟩ := hI.hlink s2 b2 hb2 e2 he2
    have hweq : w1 = w2 := by
      rw [hw1, hw2] at heval
      exact Option.some.inj heval
    subst hweq
    have he12 : e1 = e2 := by
      rw [hwt1] at hwt2
      exact Option.some.inj hwt2
    subst he12
    refine ⟨rfl, ?_⟩
    intro op
    have hsc1 : e1.score = s1 := hI.hscore s1 b1 hb1 e1 he1
    have hsc2 : e1.score = s2 := hI.hscore s2 b2 hb2 e1 he2
    have hs12 : s1 = s2 := by omega
    have hbb : b2 = b1 := by
      rw [← hs12] at hb2
      rw [hb1] at hb2
      exact (Option.some.inj hb2).symm
    subst hbb
    obtain ⟨bmax, bl, hbmax, hsl, hcs⟩ := genCandidates_inversion hgen
    subst hcs
    rw [countE_append, unaryLoop_countE_binary,
      splitLoop_countE op hsl]
    have hfun : (fun x => countE e1 ((getScoreExprs s x).getD []) *
        countE e1 ((getScoreExprs s (s.maxScore - x)).getD []))
        = (fun x => if x = e1.score then 1 else 0) := by
      funext x
      by_cases hx : x = e1.score
      · subst hx
        have hkey1 : getScoreExprs s e1.score = some b2 := by
          rw [hsc1]; exact hb1
        have hkey2 : s.maxScore - e1.score = e1.score := by omega
        rw [hkey2, hkey1]
        simp only [Option.getD_some]
        rw [countE_eq_one_of_nodup (hI.hnodup _ _ (hsc1 ▸ hb1)) he1]
        simp
      · have hzero : countE e1 ((getScoreExprs s x).getD []) = 0 := by
          cases hlx : getScoreExprs s x with
          | none => rfl
          | some lx =>
            simp only [Option.getD_some]
            apply countE_eq_zero_of_not_mem
            intro hmem
            exact hx ((hI.hscore x lx hlx e1 hmem).symm ▸ rfl)
        rw [hzero, if_neg hx]
        simp
    rw [hfun]
    rw [sum_indicator_one (List.nodup_range' 1 (s.maxScore - 1))
      (List.mem_range'_1.mpr (by omega))]

end ExprOpt

namespace ExprOpt

/-- C5 witness: in the round after round 1 (ceiling 2, split `1 + 1`),
the pair `(True, True)` has equal values, and the addition candidate
`(True)+(True)` appears exactly once in the generated list. -/
theorem C5_commutative_witness :
    countE (Expr.binary (.comm .add) Expr.trueE Expr.trueE)
      ((candsAfter 1).getD []) = 1 :=
  (C5_commutative_pruning roundOneState ((candsAfter 1).getD [])
      ⟨1, by decide⟩ (by decide)).2
    1 1 [Expr.trueE] [Expr.trueE] Expr.trueE Expr.trueE
    (by decide) (by decide) (by decide) (by decide) (by decide)
    (by decide) (by decide) rfl |>.2 .add

end ExprOpt
